import Mathlib

/-!
# Verification of the audiobook app's text/audio pipeline

A shallow embedding of the pure computational parts of `src/App.tsx` and of
the Gemini service module: sentence matching, text chunking for the TTS
character limit, the speech-request structure of `handleGenerateAudio`,
PCM buffer concatenation, the MP3 sample-block loop, and the state
transitions of the React event handlers (`handleAnalysis`,
`handleTranslate`, `handleGenerateAudio`, `handleFileChange`).

Strings are modelled as `List Char` (JavaScript strings indexed by UTF-16
units become character lists; every property proved here is insensitive to
that difference). Byte buffers are `List Nat`, 16-bit samples `List Int`.
Asynchronous API calls are modelled by passing the awaited outcome of the
call(s) to the handler as an `Except` value; the *issuing structure* of the
calls (which requests, in which concurrent `Promise.all` batches) is
modelled separately as explicit request lists.
-/

namespace AudioLib

/-- The sentence-terminator class of the regex in `splitTextIntoChunks`:
`[.!?]`. -/
def isTerm (c : Char) : Bool := c == '.' || c == '!' || c == '?'

/-- Fuel-indexed scanner for `text.match(/[^.!?]+[.!?]+/g)`.

JavaScript global matching scans left to right for the leftmost match.
Because the two character classes of the pattern are disjoint, a match
is exactly a maximal run of non-terminators that is immediately followed
by at least one terminator, together with the maximal terminator run
after it; a leading terminator run cannot start a match and is skipped,
and a trailing non-terminator run with no following terminator is not
matched. One unit of fuel is consumed per scan step; `fuel = length`
always suffices (each step consumes at least one character). -/
def matchSentencesAux : Nat → List Char → List (List Char)
  | 0, _ => []
  | _ + 1, [] => []
  | fuel + 1, c :: rest =>
    if isTerm c then matchSentencesAux fuel rest
    else
      let a := List.takeWhile (fun x => ! isTerm x) (c :: rest)
      let r1 := List.dropWhile (fun x => ! isTerm x) (c :: rest)
      let b := List.takeWhile isTerm r1
      let r2 := List.dropWhile isTerm r1
      if b.isEmpty then [] else (a ++ b) :: matchSentencesAux fuel r2

/-- `text.match(/[^.!?]+[.!?]+/g) || []` from `splitTextIntoChunks`
(`match` returns `null`, modelled as `[]`, when there is no match). -/
def matchSentences (s : List Char) : List (List Char) :=
  matchSentencesAux s.length s

/-- JavaScript `String.prototype.trim`: drop whitespace from both ends. -/
def trimChars (l : List Char) : List Char :=
  ((l.dropWhile Char.isWhitespace).reverse.dropWhile Char.isWhitespace).reverse

/-- Fuel-indexed version of the fixed-stride `while` loop
`while (i < text.length) { chunks.push(text.substring(i, i + maxLength)); i += maxLength; }`
that appears twice in `splitTextIntoChunks`. The loop is modelled on the
remaining suffix `text.drop i`; `fuel = length` suffices when `1 ≤ m`. -/
def chunkEveryAux {α : Type} (m : Nat) : Nat → List α → List (List α)
  | _, [] => []
  | 0, _ :: _ => []
  | fuel + 1, c :: rest =>
    List.take m (c :: rest) :: chunkEveryAux m fuel (List.drop m (c :: rest))

/-- The fixed-stride splitting loop of `splitTextIntoChunks`, with the
fuel instantiated so that (for `1 ≤ m`) it never runs out. -/
def chunkEvery {α : Type} (m : Nat) (l : List α) : List (List α) :=
  chunkEveryAux m l.length l

/-- The sentence-accumulation `for` loop of `splitTextIntoChunks`,
written as a fold over the matched sentences with the mutable state
`(chunks, currentChunk)` passed explicitly. Mirrors the source branch
for branch:
* an all-whitespace sentence is skipped;
* a trimmed sentence longer than `maxLength` flushes the accumulator
  (if non-empty) and is split at the fixed stride;
* if appending (with a joining space) would overflow `maxLength`, the
  accumulator is pushed — even when it is empty — and restarted;
* otherwise the sentence is appended, with a space iff the accumulator
  was non-empty.
At the end a non-empty accumulator is pushed. -/
def sentenceFold (m : Nat) : List (List Char) → List (List Char) → List Char → List (List Char)
  | [], chunks, cur => if 0 < cur.length then chunks ++ [cur] else chunks
  | s :: rest, chunks, cur =>
    let t := trimChars s
    if t.length = 0 then sentenceFold m rest chunks cur
    else if m < t.length then
      sentenceFold m rest
        ((if 0 < cur.length then chunks ++ [cur] else chunks) ++ chunkEvery m t) []
    else if m < cur.length + 1 + t.length then
      sentenceFold m rest (chunks ++ [cur]) t
    else
      sentenceFold m rest chunks (if 0 < cur.length then cur ++ ' ' :: t else t)

/-- `splitTextIntoChunks(text, maxLength)` from `src/App.tsx`. -/
def splitTextIntoChunks (text : List Char) (maxLength : Nat) : List (List Char) :=
  let sentences := matchSentences text
  if sentences.length = 0 then
    if maxLength < text.length then chunkEvery maxLength text
    else if text.isEmpty then [] else [text]
  else
    sentenceFold maxLength sentences [] []

/-- `TTS_CHARACTER_LIMIT` from `handleGenerateAudio`. -/
def TTS_CHARACTER_LIMIT : Nat := 4800

/-- The list of texts passed to `generateSpeech` by `handleGenerateAudio`
for a given `textToSpeak`: the whole text when it fits in the TTS limit,
otherwise one request per chunk; when the chunk list is empty the handler
returns early with a warning and issues no request. -/
def speechRequests (text : List Char) : List (List Char) :=
  if text.length ≤ TTS_CHARACTER_LIMIT then [text]
  else
    let chunks := splitTextIntoChunks text TTS_CHARACTER_LIMIT
    if chunks.isEmpty then [] else chunks

/-! ## Termination model of the fixed-stride loops (`while` / `for`)

`chunkLoopFuel` is the `Option`-valued counterpart of `chunkEveryAux`:
it returns `none` exactly when the loop fails to reach `i ≥ length`
within `fuel` iterations. It models both fixed-stride loops of the
source: the `while (i < ...) { ...; i += maxLength }` loops of
`splitTextIntoChunks` (stride `maxLength`) and the
`for (let i = 0; i < pcm.length; i += sampleBlockSize)` loop of
`createMp3Blob` (stride `1152`, the encoder itself being the external
lamejs library, modelled as consuming one sample block per iteration). -/
def chunkLoopFuel {α : Type} (m : Nat) : Nat → List α → Option (List (List α))
  | _, [] => some []
  | 0, _ :: _ => none
  | fuel + 1, c :: rest =>
    (chunkLoopFuel m fuel (List.drop m (c :: rest))).map
      (fun cs => List.take m (c :: rest) :: cs)

/-- `sampleBlockSize` from `createMp3Blob`. -/
def sampleBlockSize : Nat := 1152

/-- The sequence of sample blocks fed to `mp3encoder.encodeBuffer` by the
`for` loop of `createMp3Blob` (`pcm.subarray(i, i + sampleBlockSize)` for
`i = 0, 1152, 2304, ...`). -/
def mp3SampleBlocks (pcm : List Int) : List (List Int) :=
  chunkEvery sampleBlockSize pcm

/-! ## PCM assembly (`handleGenerateAudio`, lines 295-312) -/

/-- `Uint8Array.prototype.set(src, offset)`: overwrite `dest` with `src`
starting at `offset` (in the source the destination is always large
enough, which the model mirrors at the call site). -/
def setAt (dest src : List Nat) (offset : Nat) : List Nat :=
  dest.take offset ++ src ++ dest.drop (offset + src.length)

/-- The copy loop `for (const buffer of arrayBuffers) { combinedPcm.set(...); offset += ... }`. -/
def writePcm : List (List Nat) → List Nat → Nat → List Nat
  | [], dest, _ => dest
  | b :: bs, dest, offset => writePcm bs (setAt dest b offset) (offset + b.length)

/-- `arrayBuffers.reduce((acc, value) => acc + value.byteLength, 0)`. -/
def totalByteLength (bufs : List (List Nat)) : Nat :=
  bufs.foldl (fun acc b => acc + b.length) 0

/-- The PCM assembly of `handleGenerateAudio`: allocate
`new Uint8Array(totalLength)` (zero-initialised) and copy each decoded
buffer at the running offset. -/
def combinePcm (bufs : List (List Nat)) : List Nat :=
  writePcm bufs (List.replicate (totalByteLength bufs) 0) 0

/-! ## API calls and their concurrency structure -/

/-- The three analysis modes of `types.ts` / `ResponseMode`. -/
inductive RespMode where
  | Resumido | Completo | PuntosClave
deriving DecidableEq, Repr

/-- The two audio/translation languages. -/
inductive Lang where
  | es | en
deriving DecidableEq, Repr

/-- One request to the Gemini service module: `generateTextAnalysis`,
`generateSpeech` or `translateText`, with its payload. -/
inductive ApiCall where
  | analysis : List Char → RespMode → ApiCall
  | speech : List Char → Lang → ApiCall
  | translateCall : List Char → ApiCall
deriving DecidableEq, Repr

/-- The concurrent batches of API calls issued by `handleAnalysis`:
after the empty-document guard, the three `generateTextAnalysis`
promises are created by `modesToGenerate.map(...)` — all in flight
before `Promise.all` awaits them — so they form a single batch,
in the source order `[Completo, Resumido, PuntosClave]`. -/
def analysisRequestBatches (text : List Char) : List (List ApiCall) :=
  if trimChars text = [] then []
  else
    [[ApiCall.analysis text RespMode.Completo,
      ApiCall.analysis text RespMode.Resumido,
      ApiCall.analysis text RespMode.PuntosClave]]

/-- The flat list of `generateTextAnalysis` requests issued by
`handleAnalysis`. -/
def analysisRequests (text : List Char) : List ApiCall :=
  (analysisRequestBatches text).flatten

/-- The concurrent batches of `generateSpeech` calls issued by
`handleGenerateAudio` for a given `textToSpeak`: a single request when
the text fits the TTS limit, otherwise `chunks.map(chunk => generateSpeech(...))`
followed by `Promise.all` — one batch containing one call per chunk. -/
def speechRequestBatches (text : List Char) (lang : Lang) : List (List ApiCall) :=
  if text.length ≤ TTS_CHARACTER_LIMIT then [[ApiCall.speech text lang]]
  else
    let chunks := splitTextIntoChunks text TTS_CHARACTER_LIMIT
    if chunks.isEmpty then []
    else [chunks.map (fun c => ApiCall.speech c lang)]

/-! ## Handler state machines (`App` component state) -/

/-- `e.message.toLowerCase()` ingredient: substring containment, i.e.
JavaScript `String.prototype.includes`. -/
def beginsWith : List Char → List Char → Bool
  | [], _ => true
  | _ :: _, [] => false
  | c :: cs, d :: ds => c == d && beginsWith cs ds

/-- JavaScript `hay.includes(needle)`. -/
def hasSub (needle : List Char) : List Char → Bool
  | [] => needle.isEmpty
  | c :: t => beginsWith needle (c :: t) || hasSub needle t

/-- The partial record `AnalysisResults = { [key in ResponseMode]?: string }`. -/
structure AnalysisRecord where
  completo : Option (List Char)
  resumido : Option (List Char)
  puntosClave : Option (List Char)
deriving DecidableEq, Repr

/-- Lookup `record[mode]`. -/
def AnalysisRecord.get (a : AnalysisRecord) : RespMode → Option (List Char)
  | RespMode.Completo => a.completo
  | RespMode.Resumido => a.resumido
  | RespMode.PuntosClave => a.puntosClave

/-- The spread update `{ ...prev, [mode]: v }`. -/
def AnalysisRecord.set (a : AnalysisRecord) (mode : RespMode) (v : List Char) : AnalysisRecord :=
  match mode with
  | RespMode.Completo => { a with completo := some v }
  | RespMode.Resumido => { a with resumido := some v }
  | RespMode.PuntosClave => { a with puntosClave := some v }

/-- `{...null, [mode]: v}` on a possibly-null previous record. -/
def emptyRecord : AnalysisRecord := ⟨none, none, none⟩

/-- The `useState` fields of the `App` component that the verified
handlers read or write. `audioSrc` holds the content behind the object
URL (the MP3 blob is itself a function of the combined PCM, produced by
the external encoder; the model keeps the combined PCM). -/
structure AppState where
  documentText : List Char
  fileName : List Char
  analysisResults : Option AnalysisRecord
  translatedResults : Option AnalysisRecord
  activeTab : RespMode
  displayedLanguage : Lang
  audioSrc : Option (List Nat)
  audioBlob : Option (List Nat × Lang)
  isAnalyzing : Bool
  isGeneratingAudio : Bool
  isTranslating : Bool
  isParsingPdf : Bool
  generationProgress : Option (List Char)
  errorMsg : Option (List Char)
  warningMsg : Option (List Char)
  isProcessed : Bool
deriving DecidableEq, Repr

/-- The message chosen by the `catch` block of `handleAnalysis` from the
(optional) message of the thrown error. -/
def analysisErrorMessage (msg : Option (List Char)) : List Char :=
  let deflt := "Ocurrió un error al procesar el documento. Por favor, inténtalo de nuevo.".toList
  match msg with
  | none => deflt
  | some m =>
    let low := m.map Char.toLower
    if hasSub ("api key".toList) low || hasSub ("permission denied".toList) low then
      "Error de autenticación. Por favor, verifica que la API Key esté configurada correctamente en el entorno de la aplicación.".toList
    else if hasSub ("token".toList) low then
      "El documento es demasiado grande y no se pudo procesar. Error: ".toList ++ m
    else deflt

/-- `handleAnalysis(text)` with the awaited outcome of
`Promise.all([Completo, Resumido, PuntosClave].map(generateTextAnalysis))`
passed in as `api` (the triple is in the source order). -/
def handleAnalysisRun (s : AppState) (text : List Char)
    (api : Except (Option (List Char)) (List Char × List Char × List Char)) : AppState :=
  if trimChars text = [] then
    { s with errorMsg := some ("El documento no puede estar vacío.".toList) }
  else
    let s1 := { s with isAnalyzing := true, errorMsg := none, warningMsg := none,
                       audioSrc := none, audioBlob := none,
                       analysisResults := none, translatedResults := none }
    match api with
    | Except.ok (rCompleto, rResumido, rPuntos) =>
      { s1 with analysisResults := some ⟨some rCompleto, some rResumido, some rPuntos⟩,
                activeTab := RespMode.Resumido,
                displayedLanguage := Lang.es,
                isProcessed := true,
                isAnalyzing := false }
    | Except.error e =>
      { s1 with errorMsg := some (analysisErrorMessage e),
                isProcessed := false,
                isAnalyzing := false }

/-- `handleTranslate(mode)` with the awaited outcome of `translateText`. -/
def handleTranslateRun (s : AppState) (mode : RespMode)
    (api : Except Unit (List Char)) : AppState :=
  match s.analysisResults.bind (fun a => a.get mode) with
  | none => { s with errorMsg := some ("No hay texto para traducir.".toList) }
  | some _ =>
    let s1 := { s with isTranslating := true, errorMsg := none }
    match api with
    | Except.ok translated =>
      { s1 with
          translatedResults :=
            some ((s1.translatedResults.getD emptyRecord).set mode translated),
          displayedLanguage := Lang.en,
          isTranslating := false }
    | Except.error _ =>
      { s1 with errorMsg := some ("No se pudo traducir el texto.".toList),
                isTranslating := false }

/-- The `textToSpeak` selection at the top of `handleGenerateAudio`. -/
def speechSource (s : AppState) (mode : RespMode) : Lang → Option (List Char)
  | Lang.es => s.analysisResults.bind (fun a => a.get mode)
  | Lang.en => s.translatedResults.bind (fun a => a.get mode)

/-- `handleGenerateAudio(mode, language)` with the awaited outcome of the
`generateSpeech` call(s), already base64-decoded to byte buffers (the
`atob`/`charCodeAt` loop is the browser primitive that decoding models),
passed in as `api`. The `finally` block runs on every exit from the
`try`, so `isGeneratingAudio`/`generationProgress` are always reset. -/
def handleGenerateAudioRun (s : AppState) (mode : RespMode) (lang : Lang)
    (lameReady : Bool) (api : Except Unit (List (List Nat))) : AppState :=
  match speechSource s mode lang with
  | none =>
    { s with errorMsg := some ((if lang = Lang.es then
        "No hay texto en español para generar el audio."
      else "No hay texto en inglés para generar el audio.").toList) }
  | some text =>
    if lameReady = false then
      { s with errorMsg := some ("La librería de codificación de audio no está lista. Por favor, inténtalo de nuevo en un momento.".toList) }
    else
      let s1 := { s with isGeneratingAudio := true, errorMsg := none, warningMsg := none,
                         audioSrc := none, audioBlob := none, generationProgress := none }
      let finish : Except Unit (List (List Nat)) → AppState := fun outcome =>
        match outcome with
        | Except.error _ =>
          { s1 with errorMsg := some ("No se pudo generar el audio para este texto.".toList),
                    isGeneratingAudio := false, generationProgress := none }
        | Except.ok bufs =>
          let combined := combinePcm bufs
          { s1 with audioSrc := some combined,
                    audioBlob := some (combined, lang),
                    isGeneratingAudio := false, generationProgress := none }
      if text.length ≤ TTS_CHARACTER_LIMIT then finish api
      else
        let chunks := splitTextIntoChunks text TTS_CHARACTER_LIMIT
        if chunks.isEmpty then
          { s1 with warningMsg := some ("No se pudo procesar el texto para generar audio.".toList),
                    isGeneratingAudio := false, generationProgress := none }
        else finish api

/-- Outcome of `FileReader.readAsText`. -/
inductive ReadOutcome where
  | ok : List Char → ReadOutcome
  | err : ReadOutcome

/-- `handleFileChange` for a selected file of MIME type `fileType` named
`fname`; `txtRead` is the `.txt` reader outcome and `pdfExtract` the
outcome of `extractTextFromPdf` (only one of them is consulted,
depending on the type). The handler first clears the error, warning,
file name and document text. -/
def handleFileChangeRun (s : AppState) (fileType fname : List Char)
    (txtRead : ReadOutcome) (pdfExtract : Except (List Char) (List Char)) : AppState :=
  let s0 := { s with errorMsg := none, warningMsg := none,
                     fileName := [], documentText := [] }
  if fileType = "text/plain".toList then
    match txtRead with
    | ReadOutcome.ok content => { s0 with documentText := content, fileName := fname }
    | ReadOutcome.err =>
      { s0 with errorMsg := some ("Ocurrió un error al leer el archivo .txt.".toList) }
  else if fileType = "application/pdf".toList then
    let s1 := { s0 with isParsingPdf := true, fileName := fname }
    match pdfExtract with
    | Except.ok text => { s1 with documentText := text, isParsingPdf := false }
    | Except.error msg =>
      { s1 with errorMsg := some msg, fileName := [], isParsingPdf := false }
  else
    { s0 with errorMsg := some ("Por favor, sube un archivo .txt o .pdf.".toList) }

/-- A concrete analysis record used to instantiate the handler theorems. -/
def testRecord : AnalysisRecord :=
  ⟨some ("texto completo.".toList), some ("resumen.".toList), some ("puntos.".toList)⟩

/-- A concrete component state used to instantiate the handler theorems. -/
def testState : AppState where
  documentText := []
  fileName := []
  analysisResults := some testRecord
  translatedResults := none
  activeTab := RespMode.Resumido
  displayedLanguage := Lang.es
  audioSrc := none
  audioBlob := none
  isAnalyzing := false
  isGeneratingAudio := false
  isTranslating := false
  isParsingPdf := false
  generationProgress := none
  errorMsg := none
  warningMsg := none
  isProcessed := true

example : splitTextIntoChunks ("Hola. Adios.".toList) 7 =
    ["Hola.".toList, "Adios.".toList] := by decide

example : splitTextIntoChunks ("abcde".toList) 2 =
    ["ab".toList, "cd".toList, "e".toList] := by decide

example : matchSentences ("a.b! c".toList) = ["a.".toList, "b!".toList] := by decide

/-! ## Lemmas about the fixed-stride splitting loop -/

theorem chunkEveryAux_mem {α : Type} {m : Nat} (hm : 1 ≤ m) :
    ∀ (fuel : Nat) (l : List α), ∀ c ∈ chunkEveryAux m fuel l, c.length ≤ m ∧ c ≠ [] := by
  intro fuel
  induction fuel with
  | zero =>
    intro l c hc
    cases l with
    | nil => simp [chunkEveryAux] at hc
    | cons a t => simp [chunkEveryAux] at hc
  | succ n ih =>
    intro l c hc
    cases l with
    | nil => simp [chunkEveryAux] at hc
    | cons a t =>
      simp only [chunkEveryAux, List.mem_cons] at hc
      rcases hc with hc | hc
      · subst hc
        refine ⟨?_, ?_⟩
        · rw [List.length_take]; exact min_le_left _ _
        · cases m with
          | zero => exact absurd hm (by decide)
          | succ k => simp [List.take_succ_cons]
      · exact ih _ c hc

theorem chunkEveryAux_flatten {α : Type} {m : Nat} (hm : 1 ≤ m) :
    ∀ (fuel : Nat) (l : List α), l.length ≤ fuel → (chunkEveryAux m fuel l).flatten = l := by
  intro fuel
  induction fuel with
  | zero =>
    intro l hl
    have hnil : l = [] := List.length_eq_zero.1 (Nat.le_zero.1 hl)
    subst hnil; simp [chunkEveryAux]
  | succ n ih =>
    intro l hl
    cases l with
    | nil => simp [chunkEveryAux]
    | cons a t =>
      simp only [chunkEveryAux, List.flatten_cons]
      rw [ih]
      · exact List.take_append_drop m (a :: t)
      · rw [List.length_drop]
        simp only [List.length_cons] at hl ⊢
        omega

theorem chunkEveryAux_fuel_eq {α : Type} {m : Nat} (hm : 1 ≤ m) :
    ∀ (fuel₁ fuel₂ : Nat) (l : List α), l.length ≤ fuel₁ → l.length ≤ fuel₂ →
      chunkEveryAux m fuel₁ l = chunkEveryAux m fuel₂ l := by
  intro fuel₁
  induction fuel₁ with
  | zero =>
    intro fuel₂ l h1 _
    have hnil : l = [] := List.length_eq_zero.1 (Nat.le_zero.1 h1)
    subst hnil
    cases fuel₂ <;> simp [chunkEveryAux]
  | succ n ih =>
    intro fuel₂ l h1 h2
    cases l with
    | nil => cases fuel₂ <;> simp [chunkEveryAux]
    | cons a t =>
      cases fuel₂ with
      | zero => simp only [List.length_cons] at h2; omega
      | succ k =>
        simp only [chunkEveryAux]
        congr 1
        apply ih
        · rw [List.length_drop]; simp only [List.length_cons] at h1 ⊢; omega
        · rw [List.length_drop]; simp only [List.length_cons] at h2 ⊢; omega

theorem chunkEvery_mem {α : Type} {m : Nat} (hm : 1 ≤ m) {l : List α} {c : List α}
    (hc : c ∈ chunkEvery m l) : c.length ≤ m ∧ c ≠ [] :=
  chunkEveryAux_mem hm _ l c hc

theorem chunkEvery_flatten {α : Type} {m : Nat} (hm : 1 ≤ m) (l : List α) :
    (chunkEvery m l).flatten = l :=
  chunkEveryAux_flatten hm _ l le_rfl

theorem chunkEvery_ne_nil {α : Type} {m : Nat} (l : List α) (hl : l ≠ []) :
    chunkEvery m l ≠ [] := by
  cases l with
  | nil => exact absurd rfl hl
  | cons a t => simp [chunkEvery, chunkEveryAux]

/-! ## Lemmas about sentence matching and trimming -/

theorem isTerm_not_ws {c : Char} (h : isTerm c = true) : c.isWhitespace = false := by
  simp only [isTerm, Bool.or_eq_true, beq_iff_eq] at h
  rcases h with (rfl | rfl) | rfl <;> decide

theorem matchSentencesAux_mem_term :
    ∀ (fuel : Nat) (s x : List Char), x ∈ matchSentencesAux fuel s →
      ∃ c ∈ x, isTerm c = true := by
  intro fuel
  induction fuel with
  | zero => intro s x hx; simp [matchSentencesAux] at hx
  | succ n ih =>
    intro s x hx
    cases s with
    | nil => simp [matchSentencesAux] at hx
    | cons c rest =>
      simp only [matchSentencesAux] at hx
      split at hx
      · exact ih rest x hx
      · split at hx
        · simp at hx
        next hb =>
          have hbne : List.takeWhile isTerm
              (List.dropWhile (fun x => ! isTerm x) (c :: rest)) ≠ [] := by
            intro h
            rw [List.isEmpty_iff] at hb
            exact hb h
          rcases List.mem_cons.1 hx with rfl | hx
          · exact ⟨_, List.mem_append.2 (Or.inr (List.head_mem hbne)),
              List.mem_takeWhile_imp (List.head_mem hbne)⟩
          · exact ih _ x hx

theorem trimChars_ne_nil {l : List Char} {c : Char} (hc : c ∈ l)
    (hw : c.isWhitespace = false) : trimChars l ≠ [] := by
  intro h
  rw [trimChars, List.reverse_eq_nil_iff, List.dropWhile_eq_nil_iff] at h
  have h1 : c ∈ List.dropWhile Char.isWhitespace l := by
    have hc2 : c ∈ List.takeWhile Char.isWhitespace l ∨
        c ∈ List.dropWhile Char.isWhitespace l := by
      rw [← List.mem_append, List.takeWhile_append_dropWhile]
      exact hc
    rcases hc2 with h' | h'
    · have := List.mem_takeWhile_imp h'
      rw [hw] at this
      exact absurd this (by decide)
    · exact h'
  have := h c (List.mem_reverse.2 h1)
  rw [hw] at this
  exact absurd this (by decide)

theorem matchSentences_mem_trim_ne_nil {text s : List Char}
    (hs : s ∈ matchSentences text) : trimChars s ≠ [] := by
  obtain ⟨c, hc, hterm⟩ := matchSentencesAux_mem_term _ text s hs
  exact trimChars_ne_nil hc (isTerm_not_ws hterm)

/-! ## Invariants of the sentence-accumulation loop -/

theorem sentenceFold_len_le {m : Nat} (hm : 1 ≤ m) :
    ∀ (ss chunks : List (List Char)) (cur : List Char),
      (∀ c ∈ chunks, c.length ≤ m) → cur.length ≤ m →
      ∀ c ∈ sentenceFold m ss chunks cur, c.length ≤ m := by
  intro ss
  induction ss with
  | nil =>
    intro chunks cur hc hcur c hmem
    simp only [sentenceFold] at hmem
    split at hmem
    · rcases List.mem_append.1 hmem with h | h
      · exact hc c h
      · rw [List.mem_singleton] at h; subst h; exact hcur
    · exact hc c hmem
  | cons s rest ih =>
    intro chunks cur hc hcur c hmem
    simp only [sentenceFold] at hmem
    split at hmem
    · exact ih chunks cur hc hcur c hmem
    next h0 =>
      split at hmem
      next hlong =>
        refine ih _ _ ?_ ?_ c hmem
        · intro d hd
          rcases List.mem_append.1 hd with hd | hd
          · split at hd
            · rcases List.mem_append.1 hd with hd | hd
              · exact hc d hd
              · rw [List.mem_singleton] at hd; subst hd; exact hcur
            · exact hc d hd
          · exact (chunkEvery_mem hm hd).1
        · simp
      next hnl =>
        split at hmem
        next hover =>
          refine ih _ _ ?_ ?_ c hmem
          · intro d hd
            rcases List.mem_append.1 hd with hd | hd
            · exact hc d hd
            · rw [List.mem_singleton] at hd; subst hd; exact hcur
          · omega
        next hnover =>
          refine ih _ _ hc ?_ c hmem
          split
          · simp only [List.length_append, List.length_cons]
            omega
          · omega

theorem sentenceFold_ne_nil_chunks {m : Nat} :
    ∀ (ss chunks : List (List Char)) (cur : List Char), chunks ≠ [] →
      sentenceFold m ss chunks cur ≠ [] := by
  intro ss
  induction ss with
  | nil =>
    intro chunks cur hne
    simp only [sentenceFold]
    split
    · simp [List.append_eq_nil]
    · exact hne
  | cons s rest ih =>
    intro chunks cur hne
    simp only [sentenceFold]
    split
    · exact ih chunks cur hne
    · split
      · apply ih
        intro h
        rcases List.append_eq_nil.1 h with ⟨h1, _⟩
        split at h1
        · exact absurd (List.append_eq_nil.1 h1).1 hne
        · exact hne h1
      · split
        · apply ih; simp [List.append_eq_nil]
        · exact ih chunks _ hne

theorem sentenceFold_ne_nil_cur {m : Nat} :
    ∀ (ss chunks : List (List Char)) (cur : List Char), cur ≠ [] →
      sentenceFold m ss chunks cur ≠ [] := by
  intro ss
  induction ss with
  | nil =>
    intro chunks cur hne
    simp only [sentenceFold]
    split
    · simp [List.append_eq_nil]
    next h =>
      exact absurd (List.length_eq_zero.1 (by omega)) hne
  | cons s rest ih =>
    intro chunks cur hne
    simp only [sentenceFold]
    split
    · exact ih chunks cur hne
    · split
      · apply sentenceFold_ne_nil_chunks
        rw [if_pos (List.length_pos.2 hne)]
        simp [List.append_eq_nil]
      · split
        · apply sentenceFold_ne_nil_chunks
          simp [List.append_eq_nil]
        · apply ih
          split
          · simp [List.append_eq_nil]
          next h0 _ h =>
            exact fun ht => absurd (List.length_pos.2 hne) h

theorem sentenceFold_ne_nil_mem {m : Nat} :
    ∀ (ss chunks : List (List Char)) (cur : List Char),
      (∃ s ∈ ss, trimChars s ≠ []) → sentenceFold m ss chunks cur ≠ [] := by
  intro ss
  induction ss with
  | nil =>
    intro chunks cur hex
    obtain ⟨s, hs, _⟩ := hex
    simp at hs
  | cons s rest ih =>
    intro chunks cur hex
    simp only [sentenceFold]
    by_cases h0 : (trimChars s).length = 0
    · rw [if_pos h0]
      obtain ⟨w, hw, hwne⟩ := hex
      rcases List.mem_cons.1 hw with rfl | hw
      · exact absurd (List.length_eq_zero.1 h0) hwne
      · exact ih chunks cur ⟨w, hw, hwne⟩
    · rw [if_neg h0]
      split
      · apply sentenceFold_ne_nil_chunks
        intro h
        rcases List.append_eq_nil.1 h with ⟨_, h2⟩
        exact chunkEvery_ne_nil _ (fun ht => h0 (by rw [ht]; rfl)) h2
      · split
        · apply sentenceFold_ne_nil_chunks
          simp [List.append_eq_nil]
        · apply sentenceFold_ne_nil_cur
          split
          · simp [List.append_eq_nil]
          · exact fun ht => h0 (by rw [ht]; rfl)

theorem sentenceFold_mem_ne_nil {m : Nat} (hm : 1 ≤ m) :
    ∀ (ss chunks : List (List Char)) (cur : List Char),
      (∀ s ∈ ss, (trimChars s).length ≠ m) →
      (∀ c ∈ chunks, c ≠ []) →
      ∀ c ∈ sentenceFold m ss chunks cur, c ≠ [] := by
  intro ss
  induction ss with
  | nil =>
    intro chunks cur _ hc c hmem
    simp only [sentenceFold] at hmem
    split at hmem
    next hpos =>
      rcases List.mem_append.1 hmem with h | h
      · exact hc c h
      · rw [List.mem_singleton] at h; subst h
        exact List.length_pos.1 hpos
    · exact hc c hmem
  | cons s rest ih =>
    intro chunks cur hex hc c hmem
    have hexr : ∀ w ∈ rest, (trimChars w).length ≠ m :=
      fun w hw => hex w (List.mem_cons_of_mem _ hw)
    simp only [sentenceFold] at hmem
    split at hmem
    · exact ih chunks cur hexr hc c hmem
    next h0 =>
      split at hmem
      next hlong =>
        refine ih _ _ hexr ?_ c hmem
        intro d hd
        rcases List.mem_append.1 hd with hd | hd
        · split at hd
          next hpos =>
            rcases List.mem_append.1 hd with hd | hd
            · exact hc d hd
            · rw [List.mem_singleton] at hd; subst hd
              exact List.length_pos.1 hpos
          · exact hc d hd
        · exact (chunkEvery_mem hm hd).2
      next hnl =>
        split at hmem
        next hover =>
          refine ih _ _ hexr ?_ c hmem
          intro d hd
          rcases List.mem_append.1 hd with hd | hd
          · exact hc d hd
          · rw [List.mem_singleton] at hd; subst hd
            intro hcur0
            rw [hcur0] at hover
            simp only [List.length_nil] at hover
            exact hex s (List.mem_cons_self s rest) (by omega)
        next hnover =>
          exact ih _ _ hexr hc c hmem

/-! ## Top-level chunking lemmas -/

theorem splitTextIntoChunks_len_le {m : Nat} (hm : 1 ≤ m) (text : List Char) :
    ∀ c ∈ splitTextIntoChunks text m, c.length ≤ m := by
  intro c hc
  simp only [splitTextIntoChunks] at hc
  split at hc
  · split at hc
    · exact (chunkEvery_mem hm hc).1
    next hlen =>
      split at hc
      · simp at hc
      · rw [List.mem_singleton] at hc; subst hc; omega
  · exact sentenceFold_len_le hm _ [] [] (by simp) (by simp) c hc

theorem splitTextIntoChunks_ne_nil {m : Nat} {text : List Char}
    (h : m < text.length) : splitTextIntoChunks text m ≠ [] := by
  simp only [splitTextIntoChunks]
  by_cases hs : (matchSentences text).length = 0
  · rw [if_pos hs, if_pos h]
    apply chunkEvery_ne_nil
    intro ht
    rw [ht] at h
    simp at h
  · rw [if_neg hs]
    have hne : matchSentences text ≠ [] := fun hh => hs (by rw [hh]; rfl)
    obtain ⟨s, hsmem⟩ : ∃ s, s ∈ matchSentences text := by
      cases hcase : matchSentences text with
      | nil => exact absurd hcase hne
      | cons a t => exact ⟨a, List.mem_cons_self a t⟩
    exact sentenceFold_ne_nil_mem _ [] []
      ⟨s, hsmem, matchSentences_mem_trim_ne_nil hsmem⟩

theorem splitTextIntoChunks_flatten_no_sentences {m : Nat} (hm : 1 ≤ m)
    {text : List Char} (h : matchSentences text = []) :
    (splitTextIntoChunks text m).flatten = text := by
  simp only [splitTextIntoChunks, h, List.length_nil, if_pos]
  split
  · exact chunkEvery_flatten hm text
  · split
    next he => simp [List.isEmpty_iff.1 he]
    · simp

theorem splitTextIntoChunks_mem_ne_nil {m : Nat} (hm : 1 ≤ m) {text : List Char}
    (hex : ∀ s ∈ matchSentences text, (trimChars s).length ≠ m) :
    ∀ c ∈ splitTextIntoChunks text m, c ≠ [] := by
  intro c hc
  simp only [splitTextIntoChunks] at hc
  split at hc
  · split at hc
    · exact (chunkEvery_mem hm hc).2
    · split at hc
      · simp at hc
      next he =>
        rw [List.mem_singleton] at hc; subst hc
        exact fun h => he (by rw [h]; rfl)
  · exact sentenceFold_mem_ne_nil hm _ [] [] hex (by simp) c hc

/-! ## Termination of the fixed-stride loops -/

theorem chunkLoopFuel_complete {α : Type} {m : Nat} (hm : 1 ≤ m) :
    ∀ (fuel : Nat) (l : List α), l.length ≤ fuel →
      chunkLoopFuel m fuel l = some (chunkEveryAux m fuel l) := by
  intro fuel
  induction fuel with
  | zero =>
    intro l hl
    have hnil : l = [] := List.length_eq_zero.1 (Nat.le_zero.1 hl)
    subst hnil
    simp [chunkLoopFuel, chunkEveryAux]
  | succ n ih =>
    intro l hl
    cases l with
    | nil => simp [chunkLoopFuel, chunkEveryAux]
    | cons a t =>
      simp only [chunkLoopFuel, chunkEveryAux]
      rw [ih]
      · rfl
      · rw [List.length_drop]
        simp only [List.length_cons] at hl ⊢
        omega

theorem chunkLoopFuel_eq_chunkEvery {α : Type} {m : Nat} (hm : 1 ≤ m)
    {fuel : Nat} (l : List α) (hl : l.length ≤ fuel) :
    chunkLoopFuel m fuel l = some (chunkEvery m l) := by
  rw [chunkLoopFuel_complete hm fuel l hl, chunkEvery,
    chunkEveryAux_fuel_eq hm fuel l.length l hl le_rfl]

/-! ## PCM assembly lemmas -/

theorem foldl_add_length (bufs : List (List Nat)) :
    ∀ n : Nat, bufs.foldl (fun acc b => acc + b.length) n = n + (bufs.map List.length).sum := by
  induction bufs with
  | nil => intro n; simp
  | cons b bs ih =>
    intro n
    simp only [List.foldl_cons, List.map_cons, List.sum_cons, ih]
    omega

theorem totalByteLength_eq (bufs : List (List Nat)) :
    totalByteLength bufs = (bufs.map List.length).sum := by
  simpa [totalByteLength] using foldl_add_length bufs 0

theorem writePcm_append (bufs : List (List Nat)) :
    ∀ done : List Nat,
      writePcm bufs (done ++ List.replicate ((bufs.map List.length).sum) 0) done.length
        = done ++ bufs.flatten := by
  induction bufs with
  | nil => intro done; simp [writePcm]
  | cons b bs ih =>
    intro done
    simp only [writePcm, List.map_cons, List.sum_cons]
    have hset : setAt (done ++ List.replicate (b.length + (bs.map List.length).sum) 0)
        b done.length
        = (done ++ b) ++ List.replicate ((bs.map List.length).sum) 0 := by
      rw [setAt, List.take_left]
      have hdrop : List.drop (done.length + b.length)
          (done ++ List.replicate (b.length + (bs.map List.length).sum) 0)
          = List.replicate ((bs.map List.length).sum) 0 := by
        rw [← List.drop_drop, List.drop_left, List.drop_replicate]
        congr 1
        omega
      rw [hdrop, List.append_assoc]
    rw [hset]
    have := ih (done ++ b)
    rw [List.length_append] at this
    rw [this, List.flatten_cons, List.append_assoc]

theorem combinePcm_eq_flatten (bufs : List (List Nat)) : combinePcm bufs = bufs.flatten := by
  have h := writePcm_append bufs []
  simpa [combinePcm, totalByteLength_eq] using h

theorem flatten_segment :
    ∀ (bufs : List (List Nat)) (i : Nat) (h : i < bufs.length),
      ((bufs.flatten).drop (totalByteLength (bufs.take i))).take ((bufs.get ⟨i, h⟩).length)
        = bufs.get ⟨i, h⟩ := by
  intro bufs
  induction bufs with
  | nil => intro i h; simp at h
  | cons b bs ih =>
    intro i h
    cases i with
    | zero =>
      simp only [List.take_zero, totalByteLength, List.foldl_nil, List.flatten_cons,
        List.drop_zero, List.get]
      exact List.take_left b bs.flatten
    | succ j =>
      have hj : j < bs.length := by
        simp only [List.length_cons] at h
        omega
      rw [List.get_cons_succ]
      simp only [List.take_succ_cons, List.flatten_cons]
      rw [totalByteLength_eq, List.map_cons, List.sum_cons, ← totalByteLength_eq,
        ← List.drop_drop, List.drop_left]
      exact ih j hj

/-! ## Claim theorems -/

/-- C1: for every input text and every `maxLength ≥ 1`, every chunk
returned by `splitTextIntoChunks` has length at most `maxLength`; in
particular every text passed to `generateSpeech` by
`handleGenerateAudio` — the full text or a chunk of
`splitTextIntoChunks text 4800` — carries at most 4800 characters. -/
theorem chunk_length_bounded :
    (∀ (text : List Char) (maxLength : Nat), 1 ≤ maxLength →
      ∀ c ∈ splitTextIntoChunks text maxLength, c.length ≤ maxLength) ∧
    (∀ text : List Char, ∀ r ∈ speechRequests text, r.length ≤ TTS_CHARACTER_LIMIT) := by
  constructor
  · intro text m hm c hc
    exact splitTextIntoChunks_len_le hm text c hc
  · intro text r hr
    simp only [speechRequests] at hr
    split at hr
    next hle => rw [List.mem_singleton] at hr; subst hr; exact hle
    next hgt =>
      split at hr
      · simp at hr
      · exact splitTextIntoChunks_len_le (by decide) text r hr

/-- Witness: `chunk_length_bounded` at `"Hola. Adios."` with limit 2. -/
theorem chunk_length_bounded_witness :
    1 ≤ 2 ∧ ∀ c ∈ splitTextIntoChunks ("Hola. Adios.".toList) 2, c.length ≤ 2 :=
  ⟨by decide, chunk_length_bounded.1 ("Hola. Adios.".toList) 2 (by decide)⟩

/-- C2 counterexample: chunking does not preserve the number of
characters. For the input `"a. b"` (4 characters) with `maxLength = 10`
the sentence regex matches only `"a."`, so the trailing `" b"` is
dropped and the chunks hold 2 characters, not 4. -/
theorem chunking_not_length_preserving_cex :
    ¬ ((splitTextIntoChunks ("a. b".toList) 10).flatten.length
        = ("a. b".toList).length) := by decide

/-- C2 amended: chunking preserves the characters, their count and their
order exactly when the sentence regex finds no match (then the text is
split at the fixed stride, or returned whole): the concatenation of the
chunks equals the input. In general the sentence path trims whitespace,
rejoins with single spaces and drops unterminated trailing text, so the
total character count is not preserved. -/
theorem chunking_preserves_text_without_sentences (text : List Char) (m : Nat)
    (hm : 1 ≤ m) (h : matchSentences text = []) :
    (splitTextIntoChunks text m).flatten = text :=
  splitTextIntoChunks_flatten_no_sentences hm h

/-- Witness: `chunking_preserves_text_without_sentences` at `"abcde"`,
limit 2. -/
theorem chunking_preserves_text_without_sentences_witness :
    (1 ≤ 2 ∧ matchSentences ("abcde".toList) = []) ∧
    (splitTextIntoChunks ("abcde".toList) 2).flatten = "abcde".toList :=
  ⟨⟨by decide, by decide⟩,
    chunking_preserves_text_without_sentences _ 2 (by decide) (by decide)⟩

/-- C3: the PCM assembly preserves byte order and length: the combined
buffer's length is the sum of the input byte lengths, and the bytes of
the `i`-th input buffer appear contiguously, in order, at the offset
equal to the total length of buffers `0 … i-1`. -/
theorem pcm_assembly_preserves_bytes (bufs : List (List Nat)) :
    (combinePcm bufs).length = totalByteLength bufs ∧
    ∀ (i : Nat) (h : i < bufs.length),
      ((combinePcm bufs).drop (totalByteLength (bufs.take i))).take
          ((bufs.get ⟨i, h⟩).length) = bufs.get ⟨i, h⟩ := by
  refine ⟨?_, ?_⟩
  · rw [combinePcm_eq_flatten, List.length_flatten, totalByteLength_eq]
  · intro i h
    rw [combinePcm_eq_flatten]
    exact flatten_segment bufs i h

/-- Witness: `pcm_assembly_preserves_bytes` at two concrete buffers. -/
theorem pcm_assembly_preserves_bytes_witness :
    1 < ([[1, 2], [3, 4, 5]] : List (List Nat)).length ∧
    ((combinePcm [[1, 2], [3, 4, 5]]).drop
        (totalByteLength ([[1, 2], [3, 4, 5]].take 1))).take 3 = [3, 4, 5] := by
  refine ⟨by decide, ?_⟩
  have h := (pcm_assembly_preserves_bytes [[1, 2], [3, 4, 5]]).2 1 (by decide)
  simpa using h

/-- C4: `handleGenerateAudio` issues exactly one speech request holding
the full text iff the text fits the 4800-character TTS limit; otherwise
the issued requests are exactly the chunks of
`splitTextIntoChunks text 4800`, one request per chunk (and in that
case the request list is not the singleton full text). -/
theorem speech_request_structure (text : List Char) :
    (text.length ≤ TTS_CHARACTER_LIMIT → speechRequests text = [text]) ∧
    (TTS_CHARACTER_LIMIT < text.length →
      speechRequests text = splitTextIntoChunks text TTS_CHARACTER_LIMIT ∧
      speechRequests text ≠ [text]) := by
  constructor
  · intro hle
    simp only [speechRequests, if_pos hle]
  · intro hgt
    have hnle : ¬ text.length ≤ TTS_CHARACTER_LIMIT := by omega
    have hch : splitTextIntoChunks text TTS_CHARACTER_LIMIT ≠ [] :=
      splitTextIntoChunks_ne_nil hgt
    have heqc : speechRequests text = splitTextIntoChunks text TTS_CHARACTER_LIMIT := by
      simp only [speechRequests, if_neg hnle]
      rw [if_neg]
      rw [List.isEmpty_iff]
      exact hch
    refine ⟨heqc, ?_⟩
    intro heq
    have hmem : text ∈ splitTextIntoChunks text TTS_CHARACTER_LIMIT := by
      rw [← heqc, heq]
      exact List.mem_cons_self _ _
    exact absurd (splitTextIntoChunks_len_le (by decide) text text hmem) hnle

/-- Witness: `speech_request_structure` for a short text. -/
theorem speech_request_structure_witness :
    ("Hola.".toList).length ≤ TTS_CHARACTER_LIMIT ∧
    speechRequests ("Hola.".toList) = ["Hola.".toList] :=
  ⟨by decide, (speech_request_structure _).1 (by decide)⟩

/-- C5: a failed API call in each handler is surfaced as an error
message and leaves the corresponding result state unset: a failed
analysis leaves `analysisResults` null and `isProcessed` false; a
failed audio generation leaves `audioSrc` and `audioBlob` null; a
failed translation leaves `translatedResults` unchanged. -/
theorem handler_failures_set_error_only :
    (∀ (s : AppState) (text : List Char) (e : Option (List Char)),
      trimChars text ≠ [] →
      (handleAnalysisRun s text (Except.error e)).analysisResults = none ∧
      (handleAnalysisRun s text (Except.error e)).isProcessed = false ∧
      (handleAnalysisRun s text (Except.error e)).errorMsg
        = some (analysisErrorMessage e)) ∧
    (∀ (s : AppState) (mode : RespMode) (lang : Lang),
      (speechSource s mode lang).isSome = true →
      (handleGenerateAudioRun s mode lang true (Except.error ())).audioSrc = none ∧
      (handleGenerateAudioRun s mode lang true (Except.error ())).audioBlob = none ∧
      (handleGenerateAudioRun s mode lang true (Except.error ())).errorMsg
        = some ("No se pudo generar el audio para este texto.".toList)) ∧
    (∀ (s : AppState) (mode : RespMode),
      (s.analysisResults.bind (fun a => a.get mode)).isSome = true →
      (handleTranslateRun s mode (Except.error ())).translatedResults
        = s.translatedResults ∧
      (handleTranslateRun s mode (Except.error ())).errorMsg
        = some ("No se pudo traducir el texto.".toList)) := by
  refine ⟨?_, ?_, ?_⟩
  · intro s text e ht
    simp [handleAnalysisRun, ht]
  · intro s mode lang h
    obtain ⟨text, hsome⟩ := Option.isSome_iff_exists.1 h
    by_cases hlen : text.length ≤ TTS_CHARACTER_LIMIT
    · simp [handleGenerateAudioRun, hsome, hlen]
    · have hgt : TTS_CHARACTER_LIMIT < text.length := by omega
      have hch : splitTextIntoChunks text TTS_CHARACTER_LIMIT ≠ [] :=
        splitTextIntoChunks_ne_nil hgt
      simp [handleGenerateAudioRun, hsome, hlen, List.isEmpty_iff, hch]
  · intro s mode h
    obtain ⟨src, hsome⟩ := Option.isSome_iff_exists.1 h
    simp [handleTranslateRun, hsome]

/-- Witness: `handler_failures_set_error_only` on the analysis handler
at a concrete state. -/
theorem handler_failures_set_error_only_witness :
    trimChars ("Hola".toList) ≠ [] ∧
    ((handleAnalysisRun testState ("Hola".toList) (Except.error none)).analysisResults
        = none ∧
      (handleAnalysisRun testState ("Hola".toList) (Except.error none)).isProcessed
        = false ∧
      (handleAnalysisRun testState ("Hola".toList) (Except.error none)).errorMsg
        = some (analysisErrorMessage none)) :=
  ⟨by decide, handler_failures_set_error_only.1 testState _ none (by decide)⟩

/-- C6: a successful `handleAnalysis` on a text that is non-empty after
trimming issues exactly the three `generateTextAnalysis` requests —
Completo, Resumido, PuntosClave, each on that text — and stores one
result string for each of the three modes. -/
theorem analysis_three_requests (text : List Char) (ht : trimChars text ≠ []) :
    analysisRequests text =
      [ApiCall.analysis text RespMode.Completo,
       ApiCall.analysis text RespMode.Resumido,
       ApiCall.analysis text RespMode.PuntosClave] ∧
    (analysisRequests text).length = 3 ∧
    ∀ (s : AppState) (rc rr rp : List Char),
      ∃ a, (handleAnalysisRun s text (Except.ok (rc, rr, rp))).analysisResults
            = some a ∧
        a.get RespMode.Resumido = some rr ∧
        a.get RespMode.Completo = some rc ∧
        a.get RespMode.PuntosClave = some rp := by
  have hreq : analysisRequests text =
      [ApiCall.analysis text RespMode.Completo,
       ApiCall.analysis text RespMode.Resumido,
       ApiCall.analysis text RespMode.PuntosClave] := by
    simp [analysisRequests, analysisRequestBatches, ht]
  refine ⟨hreq, by rw [hreq]; rfl, ?_⟩
  intro s rc rr rp
  refine ⟨⟨some rc, some rr, some rp⟩, ?_, rfl, rfl, rfl⟩
  simp [handleAnalysisRun, ht]

/-- Witness: `analysis_three_requests` at `"Hola"`. -/
theorem analysis_three_requests_witness :
    trimChars ("Hola".toList) ≠ [] ∧ (analysisRequests ("Hola".toList)).length = 3 :=
  ⟨by decide, (analysis_three_requests _ (by decide)).2.1⟩

/-- C7: `handleFileChange` accepts only `text/plain` and
`application/pdf`; any other MIME type yields the fixed error message
and leaves `documentText` and `fileName` empty. -/
theorem file_change_rejects_other_types (s : AppState) (fileType fname : List Char)
    (txtRead : ReadOutcome) (pdfExtract : Except (List Char) (List Char))
    (h1 : fileType ≠ "text/plain".toList) (h2 : fileType ≠ "application/pdf".toList) :
    (handleFileChangeRun s fileType fname txtRead pdfExtract).errorMsg
      = some ("Por favor, sube un archivo .txt o .pdf.".toList) ∧
    (handleFileChangeRun s fileType fname txtRead pdfExtract).documentText = [] ∧
    (handleFileChangeRun s fileType fname txtRead pdfExtract).fileName = [] := by
  simp only [handleFileChangeRun]
  rw [if_neg h1, if_neg h2]
  exact ⟨rfl, rfl, rfl⟩

/-- Witness: `file_change_rejects_other_types` for an `image/png` file. -/
theorem file_change_rejects_other_types_witness :
    ("image/png".toList ≠ "text/plain".toList ∧
      "image/png".toList ≠ "application/pdf".toList) ∧
    (handleFileChangeRun testState ("image/png".toList) ("a.png".toList)
        ReadOutcome.err (Except.error [])).errorMsg
      = some ("Por favor, sube un archivo .txt o .pdf.".toList) :=
  ⟨⟨by decide, by decide⟩,
    (file_change_rejects_other_types testState _ _ ReadOutcome.err (Except.error [])
      (by decide) (by decide)).1⟩

/-- C8: both fixed-stride loops terminate in a bounded single pass: the
chunking `while` loop (stride `maxLength ≥ 1`) and the MP3 encoding
`for` loop (stride 1152) each complete — never exhaust their fuel —
whenever the fuel is at least the input length, one stride per
iteration, producing the blocks of the corresponding structural
definitions. -/
theorem loops_terminate_single_pass :
    (∀ (text : List Char) (maxLength fuel : Nat), 1 ≤ maxLength →
      text.length ≤ fuel →
      chunkLoopFuel maxLength fuel text = some (chunkEvery maxLength text)) ∧
    (∀ (pcm : List Int) (fuel : Nat), pcm.length ≤ fuel →
      chunkLoopFuel sampleBlockSize fuel pcm = some (mp3SampleBlocks pcm)) := by
  constructor
  · intro text m fuel hm hf
    exact chunkLoopFuel_eq_chunkEvery hm text hf
  · intro pcm fuel hf
    exact chunkLoopFuel_eq_chunkEvery (by decide) pcm hf

/-- Witness: `loops_terminate_single_pass` for the chunking loop. -/
theorem loops_terminate_single_pass_witness :
    (1 ≤ 2 ∧ ("Hola. Adios.".toList).length ≤ 12) ∧
    chunkLoopFuel 2 12 ("Hola. Adios.".toList)
      = some (chunkEvery 2 ("Hola. Adios.".toList)) :=
  ⟨⟨by decide, by decide⟩,
    loops_terminate_single_pass.1 _ 2 12 (by decide) (by decide)⟩

/-- C9 counterexample: the API calls are not all sequential: for the
input `"Hola"`, `handleAnalysis` creates its three
`generateTextAnalysis` promises with `modesToGenerate.map(...)` before
any is awaited (`Promise.all`), so one concurrent batch holds more than
one in-flight request. -/
theorem concurrent_batch_cex :
    ∃ b ∈ analysisRequestBatches ("Hola".toList), 1 < b.length := by decide

/-- C9 amended: the LLM and TTS requests are issued in concurrent
`Promise.all` batches, not sequentially: `handleAnalysis` issues its
three analysis requests as one batch of 3; `handleGenerateAudio` issues
a single request when the text fits the TTS limit, and otherwise one
batch holding one request per chunk. -/
theorem api_calls_concurrent_batches (text : List Char) :
    (trimChars text ≠ [] →
      ∃ b, analysisRequestBatches text = [b] ∧ b.length = 3) ∧
    (∀ lang, text.length ≤ TTS_CHARACTER_LIMIT →
      speechRequestBatches text lang = [[ApiCall.speech text lang]]) ∧
    (∀ lang, TTS_CHARACTER_LIMIT < text.length →
      ∃ b, speechRequestBatches text lang = [b] ∧
        b.length = (splitTextIntoChunks text TTS_CHARACTER_LIMIT).length) := by
  refine ⟨?_, ?_, ?_⟩
  · intro ht
    refine ⟨[ApiCall.analysis text RespMode.Completo,
        ApiCall.analysis text RespMode.Resumido,
        ApiCall.analysis text RespMode.PuntosClave], ?_, rfl⟩
    simp [analysisRequestBatches, ht]
  · intro lang hle
    simp only [speechRequestBatches, if_pos hle]
  · intro lang hgt
    have hnle : ¬ text.length ≤ TTS_CHARACTER_LIMIT := by omega
    have hch : splitTextIntoChunks text TTS_CHARACTER_LIMIT ≠ [] :=
      splitTextIntoChunks_ne_nil hgt
    refine ⟨(splitTextIntoChunks text TTS_CHARACTER_LIMIT).map
        (fun c => ApiCall.speech c lang), ?_, by simp⟩
    simp only [speechRequestBatches, if_neg hnle]
    rw [if_neg]
    rw [List.isEmpty_iff]
    exact hch

/-- Witness: `api_calls_concurrent_batches` for the analysis batch. -/
theorem api_calls_concurrent_batches_witness :
    trimChars ("Hola".toList) ≠ [] ∧
    ∃ b, analysisRequestBatches ("Hola".toList) = [b] ∧ b.length = 3 :=
  ⟨by decide, (api_calls_concurrent_batches _).1 (by decide)⟩

/-- C10 counterexample: a chunk returned by `splitTextIntoChunks` can be
empty. With `maxLength = 2` and input `"a."`, the single matched
sentence trims to `"a."` of length exactly 2, so the empty accumulator
is pushed: the empty string is among the chunks. -/
theorem empty_chunk_cex : ([] : List Char) ∈ splitTextIntoChunks ("a.".toList) 2 := by
  decide

/-- C10 amended: every chunk returned by `splitTextIntoChunks` is
non-empty provided no matched sentence trims to length exactly
`maxLength`; an empty chunk is pushed exactly when a trimmed sentence
of length exactly `maxLength` arrives while the accumulator is empty
(such a chunk would make `generateSpeech` throw on its empty cleaned
text). -/
theorem chunks_nonempty_unless_exact_limit (text : List Char) (m : Nat) (hm : 1 ≤ m)
    (hex : ∀ s ∈ matchSentences text, (trimChars s).length ≠ m) :
    ∀ c ∈ splitTextIntoChunks text m, c ≠ [] :=
  splitTextIntoChunks_mem_ne_nil hm hex

/-- Witness: `chunks_nonempty_unless_exact_limit` at `"Hola. Adios."`,
limit 7. -/
theorem chunks_nonempty_unless_exact_limit_witness :
    (1 ≤ 7 ∧ ∀ s ∈ matchSentences ("Hola. Adios.".toList), (trimChars s).length ≠ 7) ∧
    ∀ c ∈ splitTextIntoChunks ("Hola. Adios.".toList) 7, c ≠ [] :=
  ⟨⟨by decide, by decide⟩,
    chunks_nonempty_unless_exact_limit _ 7 (by decide) (by decide)⟩

end AudioLib
